import Mathlib

/-!
Verification of `ericchiang/gotools` (the `gosearch` and `giveupthefunc`
commands): a shallow embedding of the quote-aware target-path parser, the
occurrence search and position sort of `gosearch`, and the interface
satisfaction analysis and usage ranking of `giveupthefunc`, together with
theorems checking the documented behaviour of each part.

Modelling conventions: Go strings are `List Char`; Go maps are lists of
their entries (iteration order is a model parameter); a Go interface value
that may be `nil` is an `Option`; `types.Object` identity is structural
equality of the model's `Sym` records (distinct objects get distinct `id`
fields).
-/

namespace Gotools

/-! ## gosearch: quote-aware target splitting (`readNext`, `splitTarget`) -/

inductive SplitErr where
  | unterminatedQuote
  | noTarget
  | noPackageField
deriving DecidableEq

/-- `readNext` from `gosearch.go`: scan rune by rune; a `"` toggles
`inQuote` and is dropped, an unquoted `.` ends the field, any other rune
is appended to the field; reaching end of input with `inQuote` set fails
with the `unmatched '"'` error.  Returns the field and the unread rest. -/
def readNext : List Char → Bool → Except SplitErr (List Char × List Char)
  | [], true => .error .unterminatedQuote
  | [], false => .ok ([], [])
  | c :: rest, inQuote =>
    if c = '"' then readNext rest (!inQuote)
    else if c = '.' ∧ inQuote = false then .ok ([], rest)
    else
      match readNext rest inQuote with
      | .error e => .error e
      | .ok (field, r) => .ok (c :: field, r)

/-- The field-collection loop of `splitTarget`, with explicit fuel.
`readFields` runs it with sufficient fuel (`readFieldsF_congr` shows the
fuel value is irrelevant once it exceeds the input length): read fields
until an empty field ends the collection. -/
def readFieldsF : Nat → List Char → Except SplitErr (List (List Char))
  | 0, _ => .ok []
  | fuel + 1, s =>
    match readNext s false with
    | .error e => .error e
    | .ok (field, r) =>
      if field = [] then .ok []
      else
        match readFieldsF fuel r with
        | .error e => .error e
        | .ok fs => .ok (field :: fs)

def readFields (s : List Char) : Except SplitErr (List (List Char)) :=
  readFieldsF (s.length + 1) s

/-- `splitTarget` from `gosearch.go`: quote-aware split on periods into
package, top-level declaration name, and field segments. -/
def splitTarget (s : List Char) :
    Except SplitErr (List Char × List Char × List (List Char)) :=
  match readNext s false with
  | .error e => .error e
  | .ok (pkg, s₁) =>
    if pkg = [] then .error .noTarget
    else
      match readNext s₁ false with
      | .error e => .error e
      | .ok (name, s₂) =>
        if name = [] then .error .noPackageField
        else
          match readFields s₂ with
          | .error e => .error e
          | .ok fields => .ok (pkg, name, fields)

/-- `strings.Split(s, ".")`: the spec's `s.split(".")`, written from the
spec's words for comparison with `splitTarget`.  A leading `.` opens a
new empty segment; any other character is prepended to the first segment
of the split of the remainder (the split of a string is never empty). -/
def splitOnDot : List Char → List (List Char)
  | [] => [[]]
  | c :: rest =>
    if c = '.' then [] :: splitOnDot rest
    else (c :: (splitOnDot rest).headI) :: (splitOnDot rest).tail

/-- Pure description of `readNext` on quote-free input: the field is
everything before the first `.`, the rest is everything after it. -/
def rnPure : List Char → List Char × List Char
  | [] => ([], [])
  | c :: rest =>
    if c = '.' then ([], rest)
    else (c :: (rnPure rest).1, (rnPure rest).2)

/-! ### Parser lemmas -/

theorem readNext_no_quote : ∀ s : List Char, '"' ∉ s →
    readNext s false = .ok (rnPure s)
  | [], _ => rfl
  | c :: rest, h => by
    have hc : c ≠ '"' := fun he => h (he ▸ List.mem_cons_self c rest)
    have hr : '"' ∉ rest := fun hm => h (List.mem_cons_of_mem c hm)
    unfold readNext rnPure
    rw [if_neg hc]
    by_cases hd : c = '.'
    · rw [if_pos ⟨hd, rfl⟩, if_pos hd]
    · rw [if_neg (fun hia => hd hia.1), if_neg hd,
        readNext_no_quote rest hr]

theorem rnPure_no_dot : ∀ s : List Char, '.' ∉ s → rnPure s = (s, [])
  | [], _ => rfl
  | c :: rest, h => by
    have hc : c ≠ '.' := fun he => h (he ▸ List.mem_cons_self c rest)
    have hr : '.' ∉ rest := fun hm => h (List.mem_cons_of_mem c hm)
    unfold rnPure
    rw [if_neg hc, rnPure_no_dot rest hr]

theorem splitOnDot_eq (s : List Char) :
    splitOnDot s =
      (rnPure s).1 :: (if '.' ∈ s then splitOnDot (rnPure s).2 else []) := by
  induction s with
  | nil => simp [splitOnDot, rnPure]
  | cons c rest ih =>
    by_cases hd : c = '.'
    · subst hd
      simp [splitOnDot, rnPure]
    · have hne : ¬('.' = c) := fun h => hd h.symm
      simp only [splitOnDot, rnPure, if_neg hd, List.mem_cons, hne,
        false_or]
      rw [ih]
      simp

theorem rnPure_snd_length : ∀ s : List Char, '.' ∈ s →
    (rnPure s).2.length < s.length
  | c :: rest, h => by
    unfold rnPure
    by_cases hd : c = '.'
    · simp [hd]
    · rw [if_neg hd]
      have hr : '.' ∈ rest := by
        rcases List.mem_cons.mp h with he | hm
        · exact absurd he.symm hd
        · exact hm
      have := rnPure_snd_length rest hr
      simpa using Nat.lt_trans this (Nat.lt_succ_self _)

theorem rnPure_snd_no_quote : ∀ s : List Char, '"' ∉ s →
    '"' ∉ (rnPure s).2
  | [], _ => by simp [rnPure]
  | c :: rest, h => by
    have hr : '"' ∉ rest := fun hm => h (List.mem_cons_of_mem c hm)
    unfold rnPure
    by_cases hd : c = '.'
    · simpa [hd] using hr
    · rw [if_neg hd]
      exact rnPure_snd_no_quote rest hr

theorem readNext_rest_length (s : List Char) : ∀ (inQ : Bool) (f r : List Char),
    readNext s inQ = .ok (f, r) →
    r.length ≤ s.length ∧ (f ≠ [] → r.length < s.length) := by
  induction s with
  | nil =>
    intro inQ f r h
    cases inQ
    · simp only [readNext, Except.ok.injEq, Prod.mk.injEq] at h
      obtain ⟨hf, hr⟩ := h
      subst hf; subst hr
      simp
    · simp [readNext] at h
  | cons c rest ih =>
    intro inQ f r h
    unfold readNext at h
    by_cases hq : c = '"'
    · rw [if_pos hq] at h
      have h2 := ih (!inQ) f r h
      exact ⟨Nat.le_succ_of_le h2.1, fun _ => Nat.lt_succ_of_le h2.1⟩
    · rw [if_neg hq] at h
      by_cases hdq : c = '.' ∧ inQ = false
      · rw [if_pos hdq] at h
        simp only [Except.ok.injEq, Prod.mk.injEq] at h
        obtain ⟨hf, hr⟩ := h
        subst hf; subst hr
        exact ⟨Nat.le_succ _, fun hne => absurd rfl hne⟩
      · rw [if_neg hdq] at h
        cases hrec : readNext rest inQ with
        | error e => rw [hrec] at h; simp at h
        | ok fr =>
          rw [hrec] at h
          obtain ⟨field, r'⟩ := fr
          simp only [Except.ok.injEq, Prod.mk.injEq] at h
          obtain ⟨hf, hr⟩ := h
          have h2 := ih inQ field r' hrec
          subst hf; subst hr
          exact ⟨Nat.le_succ_of_le h2.1, fun _ => Nat.lt_succ_of_le h2.1⟩

theorem readFieldsF_congr : ∀ (n : Nat) (s : List Char) (fuel₁ fuel₂ : Nat),
    s.length ≤ n → s.length < fuel₁ → s.length < fuel₂ →
    readFieldsF fuel₁ s = readFieldsF fuel₂ s := by
  intro n
  induction n with
  | zero =>
    intro s fuel₁ fuel₂ hn h1 h2
    have hs : s = [] := List.length_eq_zero.mp (Nat.le_zero.mp hn)
    subst hs
    obtain ⟨m₁, rfl⟩ : ∃ m, fuel₁ = m + 1 := ⟨fuel₁ - 1, by omega⟩
    obtain ⟨m₂, rfl⟩ : ∃ m, fuel₂ = m + 1 := ⟨fuel₂ - 1, by omega⟩
    simp [readFieldsF, readNext]
  | succ n ih =>
    intro s fuel₁ fuel₂ hn h1 h2
    obtain ⟨m₁, rfl⟩ : ∃ m, fuel₁ = m + 1 := ⟨fuel₁ - 1, by omega⟩
    obtain ⟨m₂, rfl⟩ : ∃ m, fuel₂ = m + 1 := ⟨fuel₂ - 1, by omega⟩
    simp only [readFieldsF]
    cases hrn : readNext s false with
    | error e => rfl
    | ok fr =>
      obtain ⟨field, r⟩ := fr
      dsimp only
      by_cases hf : field = []
      · simp only [if_pos hf]
      · simp only [if_neg hf]
        have hlen := (readNext_rest_length s false field r hrn).2 hf
        rw [ih r m₁ m₂ (by omega) (by omega) (by omega)]

/-- Unfolding equation for `readFields`: the fuelled loop with adequate
fuel behaves as the direct recursion of the source's field loop. -/
theorem readFields_eq (s : List Char) :
    readFields s =
      match readNext s false with
      | .error e => .error e
      | .ok (field, r) =>
        if field = [] then .ok []
        else
          match readFields r with
          | .error e => .error e
          | .ok fs => .ok (field :: fs) := by
  show readFieldsF (s.length + 1) s = _
  simp only [readFieldsF]
  cases hrn : readNext s false with
  | error e => rfl
  | ok fr =>
    obtain ⟨field, r⟩ := fr
    dsimp only
    by_cases hf : field = []
    · simp only [if_pos hf]
    · simp only [if_neg hf]
      have hlen := (readNext_rest_length s false field r hrn).2 hf
      rw [readFieldsF_congr r.length r s.length (r.length + 1) (le_refl _)
        (by omega) (by omega)]
      rfl

theorem readFields_no_quote : ∀ (n : Nat) (s : List Char), s.length ≤ n →
    '"' ∉ s → s ≠ [] → (∀ seg ∈ splitOnDot s, seg ≠ []) →
    readFields s = .ok (splitOnDot s) := by
  intro n
  induction n with
  | zero =>
    intro s hn _ hne _
    exact absurd (List.length_eq_zero.mp (Nat.le_zero.mp hn)) hne
  | succ n ih =>
    intro s hn hq hne hsegs
    rw [readFields_eq]
    rcases hrn : rnPure s with ⟨f, r⟩
    have hread : readNext s false = .ok (f, r) := by
      rw [readNext_no_quote s hq, hrn]
    rw [hread]
    dsimp only
    have h₀ := splitOnDot_eq s
    rw [hrn] at h₀
    dsimp only at h₀
    have hfne : f ≠ [] := by
      apply hsegs
      rw [h₀]
      exact List.mem_cons_self _ _
    rw [if_neg hfne]
    by_cases hd : '.' ∈ s
    · rw [if_pos hd] at h₀
      have hrne : r ≠ [] := by
        intro hcon
        subst hcon
        have : ([] : List Char) ∈ splitOnDot s := by
          rw [h₀]
          exact List.mem_cons_of_mem _ (by simp [splitOnDot])
        exact hsegs [] this rfl
      have hqr : '"' ∉ r := by
        have := rnPure_snd_no_quote s hq
        rw [hrn] at this
        exact this
      have hsegr : ∀ seg ∈ splitOnDot r, seg ≠ [] := by
        intro seg hm
        exact hsegs seg (by rw [h₀]; exact List.mem_cons_of_mem _ hm)
      have hlen : r.length ≤ n := by
        have h' := rnPure_snd_length s hd
        rw [hrn] at h'
        dsimp only at h'
        omega
      rw [ih r hlen hqr hrne hsegr, h₀]
    · rw [if_neg hd] at h₀
      have hpure := rnPure_no_dot s hd
      rw [hrn] at hpure
      have hf : f = s := congrArg Prod.fst hpure
      have hr : r = [] := congrArg Prod.snd hpure
      subst hr
      have : readFields ([] : List Char) = .ok [] := rfl
      rw [this, h₀]

theorem readNext_field_no_quote (s : List Char) : ∀ (inQ : Bool) (f r : List Char),
    readNext s inQ = .ok (f, r) → '"' ∉ f := by
  induction s with
  | nil =>
    intro inQ f r h
    cases inQ
    · simp only [readNext, Except.ok.injEq, Prod.mk.injEq] at h
      simp [← h.1]
    · simp [readNext] at h
  | cons c rest ih =>
    intro inQ f r h
    unfold readNext at h
    by_cases hq : c = '"'
    · rw [if_pos hq] at h
      exact ih (!inQ) f r h
    · rw [if_neg hq] at h
      by_cases hdq : c = '.' ∧ inQ = false
      · rw [if_pos hdq] at h
        simp only [Except.ok.injEq, Prod.mk.injEq] at h
        simp [← h.1]
      · rw [if_neg hdq] at h
        cases hrec : readNext rest inQ with
        | error e => rw [hrec] at h; simp at h
        | ok fr =>
          rw [hrec] at h
          obtain ⟨field, r'⟩ := fr
          simp only [Except.ok.injEq, Prod.mk.injEq] at h
          have hfield := ih inQ field r' hrec
          rw [← h.1]
          intro hmem
          rcases List.mem_cons.mp hmem with he | hm
          · exact hq he.symm
          · exact hfield hm

theorem readFields_out_no_quote : ∀ (n : Nat) (s : List Char), s.length ≤ n →
    ∀ fs, readFields s = .ok fs → ∀ f ∈ fs, '"' ∉ f := by
  intro n
  induction n with
  | zero =>
    intro s hn fs h f hf
    have hs : s = [] := List.length_eq_zero.mp (Nat.le_zero.mp hn)
    subst hs
    have : fs = [] := by
      have he : readFields ([] : List Char) = .ok [] := rfl
      rw [he] at h
      exact (Except.ok.inj h).symm
    subst this
    simp at hf
  | succ n ih =>
    intro s hn fs h f hf
    rw [readFields_eq] at h
    cases hrn : readNext s false with
    | error e => rw [hrn] at h; simp at h
    | ok fr =>
      rw [hrn] at h
      obtain ⟨field, r⟩ := fr
      dsimp only at h
      by_cases hfe : field = []
      · rw [if_pos hfe] at h
        have : fs = [] := (Except.ok.inj h).symm
        subst this
        simp at hf
      · rw [if_neg hfe] at h
        cases hrf : readFields r with
        | error e => rw [hrf] at h; simp at h
        | ok fs' =>
          rw [hrf] at h
          have : field :: fs' = fs := Except.ok.inj h
          subst this
          rcases List.mem_cons.mp hf with he | hm
          · subst he
            exact readNext_field_no_quote s false f r hrn
          · have hlen := (readNext_rest_length s false field r hrn).2 hfe
            exact ih r (by omega) fs' hrf f hm

theorem readNext_cons (c : Char) (rest : List Char) (inQ : Bool) :
    readNext (c :: rest) inQ =
      if c = '"' then readNext rest (!inQ)
      else if c = '.' ∧ inQ = false then .ok ([], rest)
      else
        match readNext rest inQ with
        | .error e => .error e
        | .ok (field, r) => .ok (c :: field, r) := rfl

theorem readNext_quoted_span : ∀ (a b : List Char), '"' ∉ a →
    readNext (a ++ '"' :: b) true =
      (readNext b false).map fun fr => (a ++ fr.1, fr.2) := by
  intro a
  induction a with
  | nil =>
    intro b _
    show readNext ('"' :: b) true = _
    rw [readNext_cons, if_pos rfl]
    simp only [Bool.not_true]
    cases h : readNext b false with
    | error e => simp [Except.map]
    | ok fr => simp [Except.map]
  | cons c a' ih =>
    intro b hq
    have hc : c ≠ '"' := fun he => hq (he ▸ List.mem_cons_self c a')
    have ha' : '"' ∉ a' := fun hm => hq (List.mem_cons_of_mem c hm)
    show readNext (c :: (a' ++ '"' :: b)) true = _
    rw [readNext_cons, if_neg hc, if_neg (by simp : ¬(c = '.' ∧ true = false))]
    rw [ih b ha']
    cases h : readNext b false with
    | error e => simp [Except.map]
    | ok fr => simp [Except.map]

theorem readNext_error_parity (s : List Char) : ∀ (inQ : Bool) (e : SplitErr),
    readNext s inQ = .error e →
    e = .unterminatedQuote ∧ s.count '"' % 2 = if inQ then 0 else 1 := by
  induction s with
  | nil =>
    intro inQ e h
    cases inQ
    · simp [readNext] at h
    · simp only [readNext, Except.error.injEq] at h
      simp [← h]
  | cons c rest ih =>
    intro inQ e h
    unfold readNext at h
    by_cases hq : c = '"'
    · rw [if_pos hq] at h
      have h2 := ih (!inQ) e h
      refine ⟨h2.1, ?_⟩
      subst hq
      rw [List.count_cons]
      have := h2.2
      cases inQ <;> simp_all <;> omega
    · rw [if_neg hq] at h
      by_cases hdq : c = '.' ∧ inQ = false
      · rw [if_pos hdq] at h
        simp at h
      · rw [if_neg hdq] at h
        cases hrec : readNext rest inQ with
        | error e' =>
          rw [hrec] at h
          have he : e' = e := Except.error.inj h
          subst he
          have h2 := ih inQ e' hrec
          refine ⟨h2.1, ?_⟩
          rw [List.count_cons]
          have hcq : (c == '"') = false := by simp [hq]
          rw [hcq]
          simpa using h2.2
        | ok fr => rw [hrec] at h; simp at h

theorem readNext_ok_parity (s : List Char) : ∀ (inQ : Bool) (f r : List Char),
    readNext s inQ = .ok (f, r) →
    s.count '"' % 2 = (r.count '"' + if inQ then 1 else 0) % 2 := by
  induction s with
  | nil =>
    intro inQ f r h
    cases inQ
    · simp only [readNext, Except.ok.injEq, Prod.mk.injEq] at h
      simp [← h.2]
    · simp [readNext] at h
  | cons c rest ih =>
    intro inQ f r h
    unfold readNext at h
    by_cases hq : c = '"'
    · rw [if_pos hq] at h
      have h2 := ih (!inQ) f r h
      subst hq
      rw [List.count_cons]
      cases inQ <;> simp_all <;> omega
    · rw [if_neg hq] at h
      have hcq : (c == '"') = false := by simp [hq]
      by_cases hdq : c = '.' ∧ inQ = false
      · rw [if_pos hdq] at h
        simp only [Except.ok.injEq, Prod.mk.injEq] at h
        rw [List.count_cons, hcq, hdq.2, ← h.2]
      · rw [if_neg hdq] at h
        cases hrec : readNext rest inQ with
        | error e => rw [hrec] at h; simp at h
        | ok fr =>
          rw [hrec] at h
          obtain ⟨field, r'⟩ := fr
          simp only [Except.ok.injEq, Prod.mk.injEq] at h
          rw [List.count_cons, hcq, ← h.2]
          simpa using ih inQ field r' hrec

theorem readFieldsF_error_parity : ∀ (fuel : Nat) (s : List Char) (e : SplitErr),
    readFieldsF fuel s = .error e →
    e = .unterminatedQuote ∧ s.count '"' % 2 = 1 := by
  intro fuel
  induction fuel with
  | zero => intro s e h; simp [readFieldsF] at h
  | succ n ih =>
    intro s e h
    simp only [readFieldsF] at h
    cases hrn : readNext s false with
    | error e' =>
      rw [hrn] at h
      have he : e' = e := Except.error.inj h
      subst he
      have h2 := readNext_error_parity s false e' hrn
      simpa using h2
    | ok fr =>
      rw [hrn] at h
      obtain ⟨field, r⟩ := fr
      dsimp only at h
      by_cases hfe : field = []
      · rw [if_pos hfe] at h; simp at h
      · rw [if_neg hfe] at h
        cases hrf : readFieldsF n r with
        | error e' =>
          rw [hrf] at h
          have he : e' = e := Except.error.inj h
          subst he
          have h2 := ih r e' hrf
          have h3 := readNext_ok_parity s false field r hrn
          refine ⟨h2.1, ?_⟩
          have h3' : s.count '"' % 2 = r.count '"' % 2 := by simpa using h3
          omega
        | ok fs => rw [hrf] at h; simp at h

instance {ε α : Type} [DecidableEq ε] [DecidableEq α] :
    DecidableEq (Except ε α) := fun a b =>
  match a, b with
  | .error e₁, .error e₂ =>
    if h : e₁ = e₂ then .isTrue (by rw [h])
    else .isFalse (fun hc => h (Except.error.inj hc))
  | .error _, .ok _ => .isFalse (fun hc => Except.noConfusion hc)
  | .ok _, .error _ => .isFalse (fun hc => Except.noConfusion hc)
  | .ok v₁, .ok v₂ =>
    if h : v₁ = v₂ then .isTrue (by rw [h])
    else .isFalse (fun hc => h (Except.ok.inj hc))

/-! ### Parser claims -/

/-- **C4, counterexample**: the claim says that for quote-free input,
`parse` always succeeds and returns exactly `s.split(".")`.  On
`a.b..c` (quote-free) the parser stops at the empty third segment and
returns `(a, b, [])`, while the split is `[a, b, "", c]`. -/
theorem parse_split_counterexample :
    ('"' ∉ ['a', '.', 'b', '.', '.', 'c']) ∧
    splitTarget ['a', '.', 'b', '.', '.', 'c'] = .ok (['a'], ['b'], []) ∧
    splitOnDot ['a', '.', 'b', '.', '.', 'c'] = [['a'], ['b'], [], ['c']] ∧
    (['a'] :: ['b'] :: ([] : List (List Char))) ≠ [['a'], ['b'], [], ['c']] := by
  decide

/-- **C4 (amended)**: for every quote-free string whose split on `.` has
at least two segments, all non-empty, `splitTarget` succeeds and returns
exactly the segments of `s.split(".")`: the first as package, the second
as declaration name, the rest as fields. -/
theorem parse_eq_splitOnDot (s p n : List Char) (fs : List (List Char))
    (hq : '"' ∉ s) (hne : ∀ seg ∈ splitOnDot s, seg ≠ [])
    (hsplit : splitOnDot s = p :: n :: fs) :
    splitTarget s = .ok (p, n, fs) := by
  have h₀ := splitOnDot_eq s
  by_cases hd : '.' ∈ s
  · rw [if_pos hd] at h₀
    rcases hrn : rnPure s with ⟨f, r⟩
    rw [hrn] at h₀
    dsimp only at h₀
    have hread : readNext s false = .ok (f, r) := by
      rw [readNext_no_quote s hq, hrn]
    rw [hsplit] at h₀
    injection h₀ with h₁ hnfs
    have hpne : p ≠ [] := hne p (by rw [hsplit]; exact List.mem_cons_self _ _)
    have hqr : '"' ∉ r := by
      have h' := rnPure_snd_no_quote s hq
      rw [hrn] at h'
      simpa using h'
    unfold splitTarget
    rw [hread]
    dsimp only
    rw [← h₁, if_neg hpne]
    by_cases hd₂ : '.' ∈ r
    · have h₂ := splitOnDot_eq r
      rw [if_pos hd₂] at h₂
      rcases hrn₂ : rnPure r with ⟨f₂, r₂⟩
      rw [hrn₂] at h₂
      dsimp only at h₂
      have hread₂ : readNext r false = .ok (f₂, r₂) := by
        rw [readNext_no_quote r hqr, hrn₂]
      rw [hread₂]
      dsimp only
      have hnfs₂ : n :: fs = f₂ :: splitOnDot r₂ := by rw [hnfs, h₂]
      injection hnfs₂ with h₃ h₄
      have hnne : n ≠ [] :=
        hne n (by rw [hsplit]; exact List.mem_cons_of_mem _ (List.mem_cons_self _ _))
      rw [← h₃, if_neg hnne]
      have hqr₂ : '"' ∉ r₂ := by
        have h' := rnPure_snd_no_quote r hqr
        rw [hrn₂] at h'
        simpa using h'
      have hr₂ne : r₂ ≠ [] := by
        intro hcon
        apply hne [] _ rfl
        rw [hsplit]
        have hfs : fs = [[]] := by rw [h₄, hcon]; simp [splitOnDot]
        simp [hfs]
      have hsegs₂ : ∀ seg ∈ splitOnDot r₂, seg ≠ [] := by
        intro seg hm
        apply hne seg
        rw [hsplit]
        exact List.mem_cons_of_mem _ (List.mem_cons_of_mem _ (h₄ ▸ hm))
      rw [readFields_no_quote r₂.length r₂ (le_refl _) hqr₂ hr₂ne hsegs₂]
      rw [← h₄]
    · have hpure := rnPure_no_dot r hd₂
      have hread₂ : readNext r false = .ok (r, []) := by
        rw [readNext_no_quote r hqr, hpure]
      rw [hread₂]
      dsimp only
      have h₂ := splitOnDot_eq r
      rw [if_neg hd₂, hpure] at h₂
      dsimp only at h₂
      have hnfs₂ : n :: fs = [r] := by rw [hnfs, h₂]
      injection hnfs₂ with h₃ h₄
      have hnne : n ≠ [] :=
        hne n (by rw [hsplit]; exact List.mem_cons_of_mem _ (List.mem_cons_self _ _))
      rw [← h₃, if_neg hnne]
      rw [show readFields ([] : List Char) = .ok [] from rfl]
      rw [h₄]
  · rw [if_neg hd] at h₀
    rw [hsplit] at h₀
    simp at h₀

/-- **C4 witness**: a concrete instance of the amended claim. -/
theorem parse_eq_splitOnDot_witness :
    splitTarget ['a', '.', 'b', '.', 'c'] = .ok (['a'], ['b'], [['c']]) :=
  parse_eq_splitOnDot ['a', '.', 'b', '.', 'c'] ['a'] ['b'] [['c']]
    (by decide) (by decide) (by decide)

/-- **C5**: dots inside a quoted span never split and quotes are never
emitted: concretely `parse("a.b".c) = ok("a.b", "c", [])`; generally, no
segment returned by `splitTarget` contains a `"`, and for a quote-free
span `a`, reading `"a"b` yields `a` (dots included, quotes stripped)
followed by whatever reading `b` outside quotes yields. -/
theorem quoted_dots_literal :
    splitTarget ['"', 'a', '.', 'b', '"', '.', 'c'] =
      .ok (['a', '.', 'b'], ['c'], []) ∧
    (∀ (s p n : List Char) (fs : List (List Char)),
      splitTarget s = .ok (p, n, fs) →
      '"' ∉ p ∧ '"' ∉ n ∧ ∀ f ∈ fs, '"' ∉ f) ∧
    (∀ a b : List Char, '"' ∉ a →
      readNext (('"' :: a) ++ '"' :: b) false =
        (readNext b false).map fun fr => (a ++ fr.1, fr.2)) := by
  refine ⟨by decide, ?_, ?_⟩
  · intro s p n fs h
    unfold splitTarget at h
    cases h₁ : readNext s false with
    | error e => rw [h₁] at h; simp at h
    | ok pr =>
      rw [h₁] at h
      obtain ⟨pkg, s₁⟩ := pr
      dsimp only at h
      by_cases hp : pkg = []
      · rw [if_pos hp] at h; simp at h
      · rw [if_neg hp] at h
        cases h₂ : readNext s₁ false with
        | error e => rw [h₂] at h; simp at h
        | ok nr =>
          rw [h₂] at h
          obtain ⟨name, s₂⟩ := nr
          dsimp only at h
          by_cases hn : name = []
          · rw [if_pos hn] at h; simp at h
          · rw [if_neg hn] at h
            cases h₃ : readFields s₂ with
            | error e => rw [h₃] at h; simp at h
            | ok fields =>
              rw [h₃] at h
              have hinj := Except.ok.inj h
              obtain ⟨hpp, hnn, hff⟩ : pkg = p ∧ name = n ∧ fields = fs := by
                simpa [Prod.ext_iff] using hinj
              subst hpp; subst hnn; subst hff
              exact ⟨readNext_field_no_quote s false pkg s₁ h₁,
                readNext_field_no_quote s₁ false name s₂ h₂,
                readFields_out_no_quote s₂.length s₂ (le_refl _) fields h₃⟩
  · intro a b ha
    show readNext ('"' :: (a ++ '"' :: b)) false = _
    rw [readNext_cons, if_pos rfl]
    simp only [Bool.not_false]
    exact readNext_quoted_span a b ha

/-- **C5 witness**: the quoted-span conjunct at a concrete input. -/
theorem quoted_dots_literal_witness :
    readNext ['"', 'x', '"', 'y'] false = .ok (['x', 'y'], []) := by
  have h := quoted_dots_literal.2.2 ['x'] ['y'] (by decide)
  exact h.trans (by decide)

/-- **C6, counterexample**: the claim says any input with an odd number
of `"` fails with `UnterminatedQuote`.  The input `."` has one quote but
fails with the missing-package error instead (the quote is in the part
of the input the parser rejects before scanning it to the end). -/
theorem odd_quotes_counterexample :
    splitTarget ['.', '"'] = .error .noTarget ∧
    splitTarget ['.', '"'] ≠ .error .unterminatedQuote ∧
    (['.', '"'].count '"') % 2 = 1 := by
  decide

/-- **C6 (amended)**: `parse` fails with `UnterminatedQuote` only on
inputs with an odd number of `"` characters (hence never on an input
with an even number); an odd-quote input may instead fail with a
missing-segment error, or even succeed when field collection stops
before the quoted tail. -/
theorem unterminated_only_on_odd_quotes (s : List Char)
    (h : splitTarget s = .error .unterminatedQuote) :
    s.count '"' % 2 = 1 := by
  unfold splitTarget at h
  cases h₁ : readNext s false with
  | error e =>
    rw [h₁] at h
    have h2 := readNext_error_parity s false e h₁
    simpa using h2.2
  | ok pr =>
    rw [h₁] at h
    obtain ⟨pkg, s₁⟩ := pr
    dsimp only at h
    have par₁ : s.count '"' % 2 = s₁.count '"' % 2 := by
      simpa using readNext_ok_parity s false pkg s₁ h₁
    by_cases hp : pkg = []
    · rw [if_pos hp] at h; simp at h
    · rw [if_neg hp] at h
      cases h₂ : readNext s₁ false with
      | error e =>
        rw [h₂] at h
        have h2 := readNext_error_parity s₁ false e h₂
        have h2' : s₁.count '"' % 2 = 1 := by simpa using h2.2
        omega
      | ok nr =>
        rw [h₂] at h
        obtain ⟨name, s₂⟩ := nr
        dsimp only at h
        have par₂ : s₁.count '"' % 2 = s₂.count '"' % 2 := by
          simpa using readNext_ok_parity s₁ false name s₂ h₂
        by_cases hn : name = []
        · rw [if_pos hn] at h; simp at h
        · rw [if_neg hn] at h
          cases h₃ : readFields s₂ with
          | error e =>
            rw [h₃] at h
            have h3 := readFieldsF_error_parity (s₂.length + 1) s₂ e h₃
            omega
          | ok fields => rw [h₃] at h; simp at h

/-- **C6 witness**: a lone `"` does reach end of input inside quotes, so
the amended claim applies to it. -/
theorem unterminated_only_on_odd_quotes_witness :
    (['"'] : List Char).count '"' % 2 = 1 :=
  unterminated_only_on_odd_quotes ['"'] (by decide)

theorem readNext_upto_dot : ∀ (p t : List Char), '"' ∉ p → '.' ∉ p →
    readNext (p ++ '.' :: t) false = .ok (p, t) := by
  intro p
  induction p with
  | nil =>
    intro t _ _
    show readNext ('.' :: t) false = _
    rw [readNext_cons, if_neg (by decide : ¬('.' = '"')), if_pos ⟨rfl, rfl⟩]
  | cons c p' ih =>
    intro t hq hd
    have hc : c ≠ '"' := fun he => hq (he ▸ List.mem_cons_self c p')
    have hcd : c ≠ '.' := fun he => hd (he ▸ List.mem_cons_self c p')
    have hq' : '"' ∉ p' := fun hm => hq (List.mem_cons_of_mem c hm)
    have hd' : '.' ∉ p' := fun hm => hd (List.mem_cons_of_mem c hm)
    show readNext (c :: (p' ++ '.' :: t)) false = _
    rw [readNext_cons, if_neg hc, if_neg (fun hc2 => hcd hc2.1)]
    rw [ih t hq' hd']

/-- **C10**: an empty field (e.g. from two consecutive unquoted dots
after the package and name) ends field collection: `splitTarget` returns
successfully with the segments read so far and everything after the
empty segment — even non-empty text — is silently discarded. -/
theorem empty_field_stops_collection :
    (∀ s t : List Char, readNext s false = .ok ([], t) →
      readFields s = .ok []) ∧
    (∀ p n b : List Char, p ≠ [] → n ≠ [] →
      '"' ∉ p → '.' ∉ p → '"' ∉ n → '.' ∉ n →
      splitTarget (p ++ '.' :: (n ++ '.' :: ('.' :: b))) = .ok (p, n, [])) := by
  have hstop : ∀ s t : List Char, readNext s false = .ok ([], t) →
      readFields s = .ok [] := by
    intro s t h
    rw [readFields_eq, h]
    rfl
  refine ⟨hstop, ?_⟩
  intro p n b hp hn hqp hdp hqn hdn
  unfold splitTarget
  rw [readNext_upto_dot p (n ++ '.' :: ('.' :: b)) hqp hdp]
  dsimp only
  rw [if_neg hp]
  rw [readNext_upto_dot n ('.' :: b) hqn hdn]
  dsimp only
  rw [if_neg hn]
  rw [hstop ('.' :: b) b
    (by rw [readNext_cons, if_neg (by decide : ¬('.' = '"')), if_pos ⟨rfl, rfl⟩])]

/-- **C10 witness**: the discarded tail may even contain a stray quote. -/
theorem empty_field_stops_witness :
    splitTarget (['x'] ++ '.' :: (['y'] ++ '.' :: ('.' :: ['"', 'z']))) =
      .ok (['x'], ['y'], []) :=
  empty_field_stops_collection.2 ['x'] ['y'] ['"', 'z']
    (by decide) (by decide) (by decide) (by decide) (by decide) (by decide)

/-! ## gosearch: occurrence search and position sort -/

/-- A source identifier occurrence; `namePos` is its `token.Pos` (a
global offset into the file set). -/
structure Ident where
  namePos : Nat
deriving DecidableEq

/-- Identity handle for a resolved `types.Object` in `gosearch`
(distinct objects have distinct ids). -/
structure GoObj where
  id : Nat
deriving DecidableEq

/-- The per-package data `config.search` consumes from a
`loader.PackageInfo`: the error list's length and the `Defs`/`Uses` maps
from identifiers to the (possibly nil) object each resolves to. -/
structure SearchPkg where
  errors : Nat
  defs : List (Ident × Option GoObj)
  uses : List (Ident × Option GoObj)

/-- The package-scan loop of `config.search` in `gosearch.go`: skip a
package whose error list is non-empty, select `Defs` or `Uses` by the
`searchDefs` flag, and collect every identifier whose resolved object is
the target `obj`. -/
def searchIdents (searchDefs : Bool) (obj : GoObj) (pkgs : List SearchPkg) :
    List Ident :=
  pkgs.flatMap fun info =>
    if info.errors ≠ 0 then []
    else
      (if searchDefs then info.defs else info.uses).filterMap fun io =>
        if io.2 = some obj then some io.1 else none

/-- `byPos` in `gosearch.go` orders identifiers by `Less i j ↔
NamePos i < NamePos j`; `sort.Sort(byPos(idents))` is modelled as a
merge sort under the complementary `¬(NamePos j < NamePos i)`. -/
def sortByPos (idents : List Ident) : List Ident :=
  idents.mergeSort fun a b => !decide (b.namePos < a.namePos)

/-- A file registered in a `token.FileSet`.  Modelled from the spec: the
source-position collaborator (spec §3, §6) is `go/token`, which assigns
each file a contiguous base/size range of global offsets and records the
offset of each line start. -/
structure GoFile where
  base : Nat
  size : Nat
  lineStarts : List Nat

/-- A decoded `token.Position`: file (by registration index), line and
column. -/
structure FilePos where
  file : Nat
  line : Nat
  col : Nat
deriving DecidableEq

/-- Line and column of a file-local offset: the line is the number of
line starts at or before the offset; the column is one past the distance
to the latest such line start. -/
def lineCol (starts : List Nat) (off : Nat) : Nat × Nat :=
  (((starts.filter fun ls => decide (ls ≤ off)).length),
    off - (starts.filter fun ls => decide (ls ≤ off)).foldr max 0 + 1)

def decodeAux : List GoFile → Nat → Nat → Option FilePos
  | [], _, _ => none
  | f :: rest, idx, p =>
    if f.base ≤ p ∧ p ≤ f.base + f.size then
      some ⟨idx, (lineCol f.lineStarts (p - f.base)).1,
        (lineCol f.lineStarts (p - f.base)).2⟩
    else decodeAux rest (idx + 1) p

/-- `fset.Position(p)` of `go/token`, over the model file set. -/
def decodePos (fset : List GoFile) (p : Nat) : Option FilePos :=
  decodeAux fset 0 p

/-- Well-formedness of a file set: files occupy disjoint offset ranges
in registration order, as `token.FileSet.AddFile` guarantees by
advancing the next base past `base + size`. -/
def fsetWF (fset : List GoFile) : Prop :=
  fset.Pairwise fun f g => f.base + f.size < g.base

/-- Lexicographic order on decoded positions: file first, then line,
ties broken by column. -/
def FilePos.le (a b : FilePos) : Prop :=
  a.file < b.file ∨ (a.file = b.file ∧
    (a.line < b.line ∨ (a.line = b.line ∧ a.col ≤ b.col)))

instance : ∀ a b : FilePos, Decidable (FilePos.le a b) := fun a b => by
  unfold FilePos.le
  exact inferInstance

/-- Whenever both identifiers decode to positions in the file set, the
first is at or before the second. -/
def posLE (fset : List GoFile) (a b : Ident) : Prop :=
  ∀ pa pb, decodePos fset a.namePos = some pa →
    decodePos fset b.namePos = some pb → FilePos.le pa pb

/-! ### Position lemmas -/

theorem lineCol_mono (starts : List Nat) (o₁ o₂ : Nat) (h : o₁ ≤ o₂) :
    (lineCol starts o₁).1 < (lineCol starts o₂).1 ∨
      ((lineCol starts o₁).1 = (lineCol starts o₂).1 ∧
        (lineCol starts o₁).2 ≤ (lineCol starts o₂).2) := by
  have hsub : (starts.filter fun ls => decide (ls ≤ o₁)).Sublist
      (starts.filter fun ls => decide (ls ≤ o₂)) := by
    apply List.monotone_filter_right
    intro a ha
    simp only [decide_eq_true_eq] at ha ⊢
    omega
  have hlen := hsub.length_le
  rcases Nat.lt_or_ge (starts.filter fun ls => decide (ls ≤ o₁)).length
      (starts.filter fun ls => decide (ls ≤ o₂)).length with hlt | hge
  · exact Or.inl hlt
  · have heq : (starts.filter fun ls => decide (ls ≤ o₁)).length =
        (starts.filter fun ls => decide (ls ≤ o₂)).length := Nat.le_antisymm hlen hge
    have hfe := hsub.eq_of_length heq
    right
    refine ⟨heq, ?_⟩
    simp only [lineCol, hfe]
    omega

theorem decodeAux_file_ge : ∀ (fs : List GoFile) (idx p : Nat) (pos : FilePos),
    decodeAux fs idx p = some pos → idx ≤ pos.file := by
  intro fs
  induction fs with
  | nil => intro idx p pos h; simp [decodeAux] at h
  | cons f rest ih =>
    intro idx p pos h
    unfold decodeAux at h
    by_cases hin : f.base ≤ p ∧ p ≤ f.base + f.size
    · rw [if_pos hin] at h
      have h2 := Option.some.inj h
      subst h2
      simp
    · rw [if_neg hin] at h
      have := ih (idx + 1) p pos h
      omega

theorem decodeAux_contained : ∀ (fs : List GoFile) (idx p : Nat) (pos : FilePos),
    decodeAux fs idx p = some pos →
    ∃ g ∈ fs, g.base ≤ p ∧ p ≤ g.base + g.size := by
  intro fs
  induction fs with
  | nil => intro idx p pos h; simp [decodeAux] at h
  | cons f rest ih =>
    intro idx p pos h
    unfold decodeAux at h
    by_cases hin : f.base ≤ p ∧ p ≤ f.base + f.size
    · exact ⟨f, List.mem_cons_self _ _, hin⟩
    · rw [if_neg hin] at h
      obtain ⟨g, hg, hgin⟩ := ih (idx + 1) p pos h
      exact ⟨g, List.mem_cons_of_mem _ hg, hgin⟩

theorem decodeAux_mono : ∀ (fs : List GoFile) (idx p q : Nat)
    (pa pb : FilePos),
    fs.Pairwise (fun f g => f.base + f.size < g.base) → p ≤ q →
    decodeAux fs idx p = some pa → decodeAux fs idx q = some pb →
    FilePos.le pa pb := by
  intro fs
  induction fs with
  | nil => intro idx p q pa pb _ _ h; simp [decodeAux] at h
  | cons f rest ih =>
    intro idx p q pa pb hwf hpq hp hq
    unfold decodeAux at hp hq
    by_cases hinp : f.base ≤ p ∧ p ≤ f.base + f.size
    · rw [if_pos hinp] at hp
      by_cases hinq : f.base ≤ q ∧ q ≤ f.base + f.size
      · rw [if_pos hinq] at hq
        have hpa := Option.some.inj hp
        have hpb := Option.some.inj hq
        subst hpa; subst hpb
        have hmono := lineCol_mono f.lineStarts (p - f.base) (q - f.base)
          (by omega)
        unfold FilePos.le
        rcases hmono with hlt | ⟨heq, hle⟩
        · exact Or.inr ⟨rfl, Or.inl hlt⟩
        · exact Or.inr ⟨rfl, Or.inr ⟨heq, hle⟩⟩
      · rw [if_neg hinq] at hq
        have hgt := decodeAux_file_ge rest (idx + 1) q pb hq
        have hpa := Option.some.inj hp
        subst hpa
        exact Or.inl (by simp; omega)
    · rw [if_neg hinp] at hp
      by_cases hinq : f.base ≤ q ∧ q ≤ f.base + f.size
      · rw [if_pos hinq] at hq
        obtain ⟨g, hg, hgin⟩ := decodeAux_contained rest (idx + 1) p pa hp
        have hfg := (List.pairwise_cons.mp hwf).1 g hg
        exact absurd rfl (by omega : ¬(0 = 0))
      · rw [if_neg hinq] at hq
        exact ih (idx + 1) p q pa pb (List.pairwise_cons.mp hwf).2 hpq hp hq

/-- **C8**: before any output, `gosearch` sorts the collected
identifiers with `byPos`, i.e. ascending `NamePos`; under the
`token.FileSet` offset layout (well-formed file ranges) this is
ascending source position — file first, then offset/line, ties broken by
column — whatever unordered occurrence maps the identifiers came from. -/
theorem search_output_position_sorted (idents : List Ident)
    (fset : List GoFile) (hwf : fsetWF fset) :
    (sortByPos idents).Perm idents ∧
    (sortByPos idents).Pairwise (fun a b => a.namePos ≤ b.namePos) ∧
    (sortByPos idents).Pairwise (posLE fset) := by
  have htrans : ∀ a b c : Ident, (!decide (b.namePos < a.namePos)) = true →
      (!decide (c.namePos < b.namePos)) = true →
      (!decide (c.namePos < a.namePos)) = true := by
    intro a b c h1 h2
    simp only [Bool.not_eq_true', decide_eq_false_iff_not, Nat.not_lt] at h1 h2 ⊢
    omega
  have htotal : ∀ a b : Ident,
      ((!decide (b.namePos < a.namePos)) ||
        (!decide (a.namePos < b.namePos))) = true := by
    intro a b
    simp only [Bool.or_eq_true, Bool.not_eq_true', decide_eq_false_iff_not,
      Nat.not_lt]
    omega
  have hperm : (sortByPos idents).Perm idents :=
    List.mergeSort_perm idents _
  have hsorted := List.sorted_mergeSort htrans htotal idents
  have hpw : (sortByPos idents).Pairwise fun a b => a.namePos ≤ b.namePos := by
    apply hsorted.imp
    intro a b h
    simpa [Nat.not_lt] using h
  refine ⟨hperm, hpw, ?_⟩
  apply hpw.imp
  intro a b h pa pb hpa hpb
  exact decodeAux_mono fset 0 a.namePos b.namePos pa pb hwf h hpa hpb

/-- **C8 witness**: the sort applied under a concrete one-file set. -/
theorem search_output_position_sorted_witness :
    (sortByPos [⟨5⟩, ⟨1⟩]).Perm [⟨5⟩, ⟨1⟩] :=
  (search_output_position_sorted [⟨5⟩, ⟨1⟩] [⟨1, 10, [0, 3]⟩]
    (by simp [fsetWF])).1

/-! ## giveupthefunc: interface satisfaction and usage ranking -/

/-- The shape of a symbol's type, as far as `giveupthefunc` inspects it:
a `*types.Func` has a signature (with or without a receiver; `sig` is
the identity class of the receiver-less signature under
`types.Identical`), an object whose type's underlying is a
`*types.Interface` carries its required methods' signature classes, and
anything else is opaque. -/
inductive SymData where
  | func (hasRecv : Bool) (sig : Nat)
  | iface (methods : List Nat)
  | other
deriving DecidableEq

/-- A resolved `types.Object`: identity (`id` distinguishes distinct
objects), `Name()`, `String()` (the qualified form used for sort
tie-breaking, as a character list under byte-lexicographic order),
`Pkg()` (nil-able), `Exported()`, and its type shape. -/
structure Sym where
  id : Nat
  name : String
  str : List Char
  pkg : Option Nat
  exported : Bool
  data : SymData
deriving DecidableEq

/-- A `loader.PackageInfo` as `giveupthefunc` consumes it: the error
list's length and the values of the `Defs` and `Uses` maps (a value may
be nil). -/
structure PkgInfo where
  errors : Nat
  defs : List (Option Sym)
  uses : List (Option Sym)

/-- A `loader.Program`: the infos of the listed (imported) packages in
list order, and `AllPackages`. -/
structure Program where
  imported : List PkgInfo
  allPackages : List PkgInfo

/-- `allInterfaces` from `giveupthefunc.go`: over every package that
loaded cleanly, collect each non-nil defined object whose underlying
type is an interface with at least one method, paired with the
interface's method signatures. -/
def allInterfaces (prog : Program) : List (Sym × List Nat) :=
  prog.allPackages.flatMap fun info =>
    if info.errors ≠ 0 then []
    else
      info.defs.filterMap fun o =>
        match o with
        | none => none
        | some obj =>
          match obj.data with
          | .iface ms => if ms.length = 0 then none else some (obj, ms)
          | _ => none

/-- `satisfiesInterface` from `giveupthefunc.go`: `f` must be a method
(signature with a receiver); an interface owned by a different (or
absent) package is skipped unless both the interface name and `f` are
exported; within the remaining interfaces, `f` satisfies if some
required method's signature is identical to `f`'s. -/
def satisfiesInterface (f : Sym) (interfaces : List (Sym × List Nat)) :
    Bool :=
  match f.data with
  | .func hasRecv sig =>
    if hasRecv = false then false
    else
      interfaces.any fun oi =>
        let samePkg := oi.1.pkg.isSome && decide (oi.1.pkg = f.pkg)
        if !samePkg && (!oi.1.exported || !f.exported) then false
        else oi.2.any fun m => decide (m = sig)
  | _ => false

/-- The `allowErrors && len(info.Errors) != 0` skip in both ranking
loops of `main`. -/
def keptPkgs (allowErrors : Bool) (pkgs : List PkgInfo) : List PkgInfo :=
  pkgs.filter fun info => !(allowErrors && decide (info.errors ≠ 0))

/-- The `obj.(*types.Func)` type switch. -/
def isFunc (s : Sym) : Bool :=
  match s.data with
  | .func _ _ => true
  | _ => false

/-- The body of the definitions loop of `main`: a `Defs` entry becomes a
tracked key iff it is non-nil, is a `*types.Func`, is not named `main`
or `init`, and survives the optional interface-satisfaction exclusion. -/
def keepDef (ia : Bool) (ifaces : List (Sym × List Nat)) (o : Option Sym) :
    Bool :=
  match o with
  | none => false
  | some obj =>
    if isFunc obj then
      if obj.name = "main" ∨ obj.name = "init" then false
      else !(ia && satisfiesInterface obj ifaces)
    else false

/-- The key set of the `defs` count map, in first-scan order. -/
def candidateKeys (ia ae : Bool) (ifaces : List (Sym × List Nat))
    (pkgs : List PkgInfo) : List (Option Sym) :=
  (((keptPkgs ae pkgs).flatMap fun info => info.defs).filter
    (keepDef ia ifaces)).dedup

/-- The counting loop of `main`: a key's final count is the number of
non-nil `Uses` entries over the kept packages that equal it. -/
def useCount (ae : Bool) (pkgs : List PkgInfo) (k : Option Sym) : Nat :=
  ((keptPkgs ae pkgs).flatMap fun info => info.uses).countP fun u =>
    match u with
    | none => false
    | some _ => decide (u = k)

/-- The `defs` map of `main` after both loops, as (key, count) entries
in key-scan order. -/
def candidateEntries (ia ae : Bool) (prog : Program) :
    List (Option Sym × Nat) :=
  (candidateKeys ia ae (if ia then allInterfaces prog else [])
    prog.imported).map fun k => (k, useCount ae prog.imported k)

/-- Go's byte-lexicographic `<` on strings (UTF-8 byte order equals
code-point order), over the model's character lists. -/
def strLt : List Char → List Char → Bool
  | [], [] => false
  | [], _ :: _ => true
  | _ :: _, [] => false
  | a :: as, b :: bs =>
    if a < b then true
    else if b < a then false
    else strLt as bs

/-- `obj.String()` of a count-map key; the ranking never holds a nil key
(see the nil-skipping theorem), so the nil case is unreachable. -/
def keyStr : Option Sym → List Char
  | none => []
  | some s => s.str

/-- `byCount.Less` from `giveupthefunc.go`: ascending count, ties broken
by `obj.String()`. -/
def byCountLess (a b : Option Sym × Nat) : Bool :=
  if a.2 ≠ b.2 then decide (a.2 < b.2)
  else strLt (keyStr a.1) (keyStr b.1)

/-- `sort.Sort(byCount(counts))`, modelled as a merge sort under the
complementary relation `¬Less(b, a)`. -/
def sortByCount (l : List (Option Sym × Nat)) : List (Option Sym × Nat) :=
  l.mergeSort fun a b => !byCountLess b a

/-- Modelled from the spec: the front-end load (`loader.Config.Load`,
spec §6) aborts — and `main` exits before ranking — when a package has
load/type errors and allow-errors mode is off; with allow-errors on,
error-bearing packages are retained but flagged. -/
def loadOk (allowErrors : Bool) (prog : Program) : Bool :=
  allowErrors || prog.allPackages.all fun info => decide (info.errors = 0)

/-- `main` of `giveupthefunc.go` after `go list`: load, optionally build
the interface index, build the count map over the listed packages, count
uses, and emit the entries sorted by `byCount`.  `none` models the fatal
exit when the load fails. -/
def runRank (interfaceAnalysis allowErrors : Bool) (prog : Program) :
    Option (List (Option Sym × Nat)) :=
  if loadOk allowErrors prog then
    some (sortByCount (candidateEntries interfaceAnalysis allowErrors prog))
  else none

/-! ### String order and sorting lemmas -/

theorem strLt_asymm : ∀ a b : List Char, strLt a b = true → strLt b a = false
  | [], [] => by simp [strLt]
  | [], _ :: _ => by simp [strLt]
  | _ :: _, [] => by simp [strLt]
  | a :: as, b :: bs => by
    simp only [strLt]
    by_cases h1 : a < b
    · rw [if_pos h1]
      intro _
      rw [if_neg (lt_asymm h1), if_pos h1]
    · rw [if_neg h1]
      by_cases h2 : b < a
      · rw [if_pos h2]
        intro h
        cases h
      · rw [if_neg h2, if_neg h2, if_neg h1]
        exact strLt_asymm as bs

theorem strLt_trans : ∀ a b c : List Char,
    strLt a b = true → strLt b c = true → strLt a c = true
  | [], [], _ => by simp [strLt]
  | [], _ :: _, [] => by simp [strLt]
  | [], _ :: _, _ :: _ => by simp [strLt]
  | _ :: _, [], _ => by simp [strLt]
  | a :: as, b :: bs, [] => by simp [strLt]
  | a :: as, b :: bs, c :: cs => by
    simp only [strLt]
    by_cases hab : a < b
    · rw [if_pos hab]
      by_cases hbc : b < c
      · rw [if_pos hbc]
        intro _ _
        rw [if_pos (lt_trans hab hbc)]
      · rw [if_neg hbc]
        by_cases hcb : c < b
        · rw [if_pos hcb]
          intro _ h
          cases h
        · rw [if_neg hcb]
          have hbceq : b = c := le_antisymm (not_lt.mp hcb) (not_lt.mp hbc)
          subst hbceq
          intro _ _
          rw [if_pos hab]
    · rw [if_neg hab]
      by_cases hba : b < a
      · rw [if_pos hba]
        intro h
        cases h
      · rw [if_neg hba]
        have habeq : a = b := le_antisymm (not_lt.mp hba) (not_lt.mp hab)
        subst habeq
        by_cases hac : a < c
        · rw [if_pos hac, if_pos hac]
          intro _ _
          rfl
        · rw [if_neg hac]
          by_cases hca : c < a
          · rw [if_pos hca, if_pos hca]
            intro _ h
            cases h
          · rw [if_neg hca, if_neg hca, if_neg hac]
            exact strLt_trans as bs cs

theorem strLt_conn : ∀ a b : List Char,
    strLt a b = false → strLt b a = false → a = b
  | [], [] => by simp
  | [], _ :: _ => by simp [strLt]
  | _ :: _, [] => by simp [strLt]
  | a :: as, b :: bs => by
    simp only [strLt]
    by_cases hab : a < b
    · rw [if_pos hab]
      intro h _
      exact Bool.noConfusion h
    · rw [if_neg hab]
      by_cases hba : b < a
      · rw [if_pos hba, if_neg hab, if_pos hba]
        intro _ h
        exact Bool.noConfusion h
      · rw [if_neg hba, if_neg hba, if_neg hab]
        intro h1 h2
        have habeq : a = b := le_antisymm (not_lt.mp hba) (not_lt.mp hab)
        rw [habeq, strLt_conn as bs h1 h2]

theorem strLt_neg_trans (a b c : List Char) (h1 : strLt b a = false)
    (h2 : strLt c b = false) : strLt c a = false := by
  by_cases hbc : strLt b c = true
  · by_cases hab : strLt a b = true
    · cases hca : strLt c a
      · rfl
      · have := strLt_trans c a b hca hab
        rw [this] at h2
        cases h2
    · have hab' : strLt a b = false := by
        cases h : strLt a b
        · rfl
        · exact absurd h hab
      have heq : a = b := strLt_conn a b hab' h1
      rw [← heq] at h2
      exact h2
  · have hbc' : strLt b c = false := by
      cases h : strLt b c
      · rfl
      · exact absurd h hbc
    have heq : b = c := strLt_conn b c hbc' h2
    rw [← heq]
    exact h1

theorem byCountLess_iff (a b : Option Sym × Nat) :
    byCountLess a b = true ↔
      a.2 < b.2 ∨ (a.2 = b.2 ∧ strLt (keyStr a.1) (keyStr b.1) = true) := by
  unfold byCountLess
  by_cases h : a.2 = b.2
  · simp [h]
  · simp [h]

theorem byCountLess_asymm (a b : Option Sym × Nat)
    (h : byCountLess a b = true) : byCountLess b a = false := by
  rcases (byCountLess_iff a b).mp h with hlt | ⟨heq, hstr⟩
  · cases hb : byCountLess b a
    · rfl
    · rcases (byCountLess_iff b a).mp hb with hlt2 | ⟨heq2, _⟩
      · omega
      · omega
  · cases hb : byCountLess b a
    · rfl
    · rcases (byCountLess_iff b a).mp hb with hlt2 | ⟨heq2, hstr2⟩
      · omega
      · have := strLt_asymm _ _ hstr
        rw [this] at hstr2
        cases hstr2

theorem byCountLE_total (a b : Option Sym × Nat) :
    ((!byCountLess b a) || (!byCountLess a b)) = true := by
  cases hba : byCountLess b a
  · simp
  · simp [byCountLess_asymm b a hba]

theorem byCountLE_trans (a b c : Option Sym × Nat)
    (h1 : (!byCountLess b a) = true) (h2 : (!byCountLess c b) = true) :
    (!byCountLess c a) = true := by
  rw [Bool.not_eq_true'] at h1 h2 ⊢
  have n1 : ¬(b.2 < a.2 ∨ (b.2 = a.2 ∧
      strLt (keyStr b.1) (keyStr a.1) = true)) := by
    intro hc
    have := (byCountLess_iff b a).mpr hc
    rw [this] at h1
    cases h1
  have n2 : ¬(c.2 < b.2 ∨ (c.2 = b.2 ∧
      strLt (keyStr c.1) (keyStr b.1) = true)) := by
    intro hc
    have := (byCountLess_iff c b).mpr hc
    rw [this] at h2
    cases h2
  have c1 : a.2 ≤ b.2 := Nat.not_lt.mp fun hlt => n1 (Or.inl hlt)
  have c2 : b.2 ≤ c.2 := Nat.not_lt.mp fun hlt => n2 (Or.inl hlt)
  cases hb : byCountLess c a
  · rfl
  · rcases (byCountLess_iff c a).mp hb with hlt | ⟨heq, hstr⟩
    · omega
    · have e1 : b.2 = a.2 := by omega
      have e2 : c.2 = b.2 := by omega
      have s1 : strLt (keyStr b.1) (keyStr a.1) = false := by
        cases hs : strLt (keyStr b.1) (keyStr a.1)
        · rfl
        · exact absurd (Or.inr ⟨e1, hs⟩) n1
      have s2 : strLt (keyStr c.1) (keyStr b.1) = false := by
        cases hs : strLt (keyStr c.1) (keyStr b.1)
        · rfl
        · exact absurd (Or.inr ⟨e2, hs⟩) n2
      have := strLt_neg_trans (keyStr a.1) (keyStr b.1) (keyStr c.1) s1 s2
      rw [this] at hstr
      cases hstr

theorem append_cons_of_all_eq {α : Type} (a : α) :
    ∀ (u v : List α), (∀ x ∈ u, x = a) → u ++ a :: v = a :: (u ++ v) := by
  intro u
  induction u with
  | nil => intro v _; rfl
  | cons x u' ih =>
    intro v hall
    have hx : x = a := hall x (List.mem_cons_self _ _)
    subst hx
    have h' : ∀ y ∈ u', y = x := fun y hy => hall y (List.mem_cons_of_mem _ hy)
    simp only [List.cons_append]
    rw [ih v h']

/-- Two sorted permutations of each other are equal, provided the order
is antisymmetric on the elements involved. -/
theorem eq_of_perm_of_pairwise {α : Type} {R : α → α → Prop} :
    ∀ (l₁ l₂ : List α), l₁.Perm l₂ → l₁.Pairwise R → l₂.Pairwise R →
      (∀ a ∈ l₁, ∀ b ∈ l₁, R a b → R b a → a = b) → l₁ = l₂ := by
  intro l₁
  induction l₁ with
  | nil =>
    intro l₂ hp _ _ _
    exact (List.Perm.eq_nil hp.symm).symm
  | cons a t ih =>
    intro l₂ hp hP1 hP2 hanti
    have ha : a ∈ l₂ := hp.subset (List.mem_cons_self _ _)
    obtain ⟨u, v, rfl⟩ := List.append_of_mem ha
    have hu_all : ∀ x ∈ u, x = a := by
      intro x hxu
      have hxl₂ : x ∈ u ++ a :: v := List.mem_append_left _ hxu
      have hxl₁ : x ∈ a :: t := hp.symm.subset hxl₂
      have hRxa : R x a :=
        (List.pairwise_append.mp hP2).2.2 x hxu a (List.mem_cons_self _ _)
      rcases List.mem_cons.mp hxl₁ with he | hm
      · exact he
      · have hRax : R a x := List.rel_of_pairwise_cons hP1 hm
        exact hanti x hxl₁ a (List.mem_cons_self _ _) hRxa hRax
    have hperm_t : t.Perm (u ++ v) :=
      (hp.trans List.perm_middle).cons_inv
    have hP2' : (u ++ v).Pairwise R :=
      hP2.sublist ((List.sublist_cons_self a v).append_left u)
    have ht := ih (u ++ v) hperm_t (List.pairwise_cons.mp hP1).2 hP2'
      (fun x hx y hy hxy hyx =>
        hanti x (List.mem_cons_of_mem _ hx) y (List.mem_cons_of_mem _ hy)
          hxy hyx)
    rw [ht]
    exact (append_cons_of_all_eq a u v hu_all).symm

/-! ### Interface satisfaction (C1) -/

theorem satisfies_pred_iff (f : Sym) (sig : Nat) (oi : Sym × List Nat) :
    ((if !(oi.1.pkg.isSome && decide (oi.1.pkg = f.pkg)) &&
        (!oi.1.exported || !f.exported) then false
      else oi.2.any fun m => decide (m = sig)) = true) ↔
      (((∃ pk, oi.1.pkg = some pk ∧ f.pkg = some pk) ∨
        (oi.1.exported = true ∧ f.exported = true)) ∧ sig ∈ oi.2) := by
  by_cases hc : (!(oi.1.pkg.isSome && decide (oi.1.pkg = f.pkg)) &&
      (!oi.1.exported || !f.exported)) = true
  · rw [if_pos hc]
    simp only [Bool.and_eq_true, Bool.not_eq_true', Bool.or_eq_true] at hc
    obtain ⟨hsp, hexp⟩ := hc
    constructor
    · intro h
      exact Bool.noConfusion h
    · rintro ⟨hvis, _⟩
      exfalso
      rcases hvis with ⟨pk, hopk, hfpk⟩ | ⟨he1, he2⟩
      · rw [Bool.and_eq_false_iff] at hsp
        rcases hsp with hs | hd
        · rw [hopk] at hs
          simp at hs
        · rw [decide_eq_false_iff_not] at hd
          exact hd (by rw [hopk, hfpk])
      · rcases hexp with h1 | h1
        · rw [he1] at h1
          cases h1
        · rw [he2] at h1
          cases h1
  · rw [if_neg hc]
    have hvis : (∃ pk, oi.1.pkg = some pk ∧ f.pkg = some pk) ∨
        (oi.1.exported = true ∧ f.exported = true) := by
      rw [Bool.and_eq_true, not_and_or] at hc
      rcases hc with hs | he
      · left
        rw [Bool.not_eq_true, Bool.not_eq_false'] at hs
        rw [Bool.and_eq_true] at hs
        obtain ⟨h1, h2⟩ := hs
        obtain ⟨pk, hpk⟩ := Option.isSome_iff_exists.mp h1
        exact ⟨pk, hpk, by rw [← (decide_eq_true_eq.mp h2), hpk]⟩
      · right
        rw [Bool.not_eq_true, Bool.or_eq_false_iff] at he
        obtain ⟨h1, h2⟩ := he
        rw [Bool.not_eq_false'] at h1 h2
        exact ⟨h1, h2⟩
    constructor
    · intro h
      refine ⟨hvis, ?_⟩
      obtain ⟨m, hm, hms⟩ := List.any_eq_true.mp h
      rw [decide_eq_true_eq] at hms
      rw [← hms]
      exact hm
    · rintro ⟨_, hmem⟩
      exact List.any_eq_true.mpr ⟨sig, hmem, by simp⟩

/-- **C1**: `satisfiesInterface(fn, index)` is true iff `fn` is a method
(a function symbol with a receiver) and some indexed interface is either
owned by `fn`'s own package or has both its name and `fn`'s name
exported, and requires a method whose signature is identical to `fn`'s;
in particular a free function never satisfies any interface, and an
unexported method never satisfies an interface owned by a different (or
absent) package. -/
theorem satisfies_characterization (f : Sym) (idx : List (Sym × List Nat)) :
    (satisfiesInterface f idx = true ↔
      (∃ sig, f.data = .func true sig ∧
        ∃ oi ∈ idx,
          ((∃ pk, oi.1.pkg = some pk ∧ f.pkg = some pk) ∨
            (oi.1.exported = true ∧ f.exported = true)) ∧
          sig ∈ oi.2)) ∧
    (∀ sig, f.data = .func false sig → satisfiesInterface f idx = false) ∧
    (f.exported = false →
      (∀ oi ∈ idx, ∀ pk, oi.1.pkg = some pk → f.pkg ≠ some pk) →
      satisfiesInterface f idx = false) := by
  have hiff : satisfiesInterface f idx = true ↔
      (∃ sig, f.data = .func true sig ∧
        ∃ oi ∈ idx,
          ((∃ pk, oi.1.pkg = some pk ∧ f.pkg = some pk) ∨
            (oi.1.exported = true ∧ f.exported = true)) ∧
          sig ∈ oi.2) := by
    unfold satisfiesInterface
    cases hdata : f.data with
    | func hasRecv sig =>
      dsimp only
      cases hasRecv with
      | false =>
        rw [if_pos rfl]
        simp [hdata]
      | true =>
        rw [if_neg (by simp)]
        rw [List.any_eq_true]
        constructor
        · rintro ⟨oi, hoi, hp⟩
          refine ⟨sig, rfl, oi, hoi, ?_⟩
          exact (satisfies_pred_iff f sig oi).mp hp
        · rintro ⟨sig', hsig', oi, hoi, hvis, hmem⟩
          have hs : sig' = sig := ((SymData.func.inj hsig').2).symm
          subst hs
          exact ⟨oi, hoi, (satisfies_pred_iff f sig' oi).mpr ⟨hvis, hmem⟩⟩
    | iface ms =>
      simp [hdata]
    | other =>
      simp [hdata]
  refine ⟨hiff, ?_, ?_⟩
  · intro sig hdata
    cases hs : satisfiesInterface f idx
    · rfl
    · obtain ⟨sig', hsig', _⟩ := hiff.mp hs
      rw [hdata] at hsig'
      exact absurd (SymData.func.inj hsig').1 (by simp)
  · intro hexp hpkg
    cases hs : satisfiesInterface f idx
    · rfl
    · obtain ⟨sig', _, oi, hoi, hvis, _⟩ := hiff.mp hs
      exfalso
      rcases hvis with ⟨pk, h1, h2⟩ | ⟨_, h2⟩
      · exact hpkg oi hoi pk h1 h2
      · rw [hexp] at h2
        cases h2

/-- Concrete sample symbols for the witnesses. -/
def okFuncG : Sym := ⟨2, "G", ['p', '.', 'G'], some 1, true, .func true 7⟩

def ifaceI : Sym := ⟨3, "I", ['p', '.', 'I'], some 1, true, .iface [7]⟩

/-- **C1 witness**: an exported method whose signature matches a method
of a same-package interface satisfies the index. -/
theorem satisfies_characterization_witness :
    satisfiesInterface okFuncG [(ifaceI, [7])] = true := by
  apply (satisfies_characterization okFuncG [(ifaceI, [7])]).1.mpr
  refine ⟨7, rfl, (ifaceI, [7]), List.mem_cons_self _ _, ?_, by simp⟩
  exact Or.inl ⟨1, rfl, rfl⟩

/-! ### Ranking candidates and counts (C2) -/

theorem mem_candidateKeys (ia ae : Bool) (ifaces : List (Sym × List Nat))
    (pkgs : List PkgInfo) (k : Option Sym) :
    k ∈ candidateKeys ia ae ifaces pkgs ↔
      ((∃ info ∈ keptPkgs ae pkgs, k ∈ info.defs) ∧
        keepDef ia ifaces k = true) := by
  unfold candidateKeys
  rw [List.mem_dedup, List.mem_filter, List.mem_flatMap]

theorem keepDef_iff (ia : Bool) (ifaces : List (Sym × List Nat))
    (k : Option Sym) :
    keepDef ia ifaces k = true ↔
      ∃ s, k = some s ∧ isFunc s = true ∧ s.name ≠ "main" ∧
        s.name ≠ "init" ∧
        (ia = true → satisfiesInterface s ifaces = false) := by
  cases k with
  | none =>
    simp [keepDef]
  | some s =>
    show (if isFunc s then _ else false) = true ↔ _
    by_cases hf : isFunc s
    · rw [if_pos hf]
      by_cases hname : s.name = "main" ∨ s.name = "init"
      · rw [if_pos hname]
        constructor
        · intro h
          exact Bool.noConfusion h
        · rintro ⟨s', hs', _, hm, hi, _⟩
          obtain rfl : s = s' := Option.some.inj hs'
          rcases hname with h | h
          · exact absurd h hm
          · exact absurd h hi
      · rw [if_neg hname]
        push_neg at hname
        constructor
        · intro h
          refine ⟨s, rfl, hf, hname.1, hname.2, ?_⟩
          intro hia
          rw [hia] at h
          simpa using h
        · rintro ⟨s', hs', _, _, _, hsat⟩
          obtain rfl : s = s' := Option.some.inj hs'
          cases hia : ia
          · simp
          · simp [hsat hia]
    · rw [if_neg hf]
      constructor
      · intro h
        exact Bool.noConfusion h
      · rintro ⟨s', hs', hf', _⟩
        obtain rfl : s = s' := Option.some.inj hs'
        exact absurd hf' (by simpa using hf)

theorem count_flatMap {α β : Type} [BEq β] (l : List α)
    (f : α → List β) (x : β) :
    (l.flatMap f).count x = (l.map fun a => (f a).count x).sum := by
  induction l with
  | nil => rfl
  | cons a l ih => simp [List.flatMap_cons, List.count_append, ih]

theorem useCount_eq_count (ae : Bool) (pkgs : List PkgInfo) (s : Sym) :
    useCount ae pkgs (some s) =
      ((keptPkgs ae pkgs).map fun info => info.uses.count (some s)).sum := by
  unfold useCount
  have h1 : (((keptPkgs ae pkgs).flatMap fun info => info.uses).countP fun u =>
      match u with
      | none => false
      | some _ => decide (u = some s)) =
      ((keptPkgs ae pkgs).flatMap fun info => info.uses).count (some s) := by
    rw [List.count_eq_countP]
    apply List.countP_congr
    intro u _
    cases u with
    | none => simp
    | some v =>
      by_cases hv : v = s
      · simp [hv]
      · simp [hv]
  rw [h1]
  exact count_flatMap (keptPkgs ae pkgs) (fun info => info.uses) (some s)

theorem runRank_some (ia ae : Bool) (prog : Program)
    (h : loadOk ae prog = true) :
    runRank ia ae prog =
      some (sortByCount (candidateEntries ia ae prog)) := by
  unfold runRank
  rw [h]
  exact if_pos rfl

/-- An unexported free function named `f`, and a package that fails to
load but still carries its definition. -/
def funcF : Sym := ⟨0, "f", ['f'], some 1, false, .func false 3⟩

def errPkg : PkgInfo := ⟨1, [some funcF], []⟩

def progErr : Program := ⟨[errPkg], [errPkg]⟩

/-- **C2, counterexample**: the claim says the candidate set is exactly
the function Definitions found in the listed packages (minus
`main`/`init` and interface satisfiers).  With allow-errors on, a listed
package that failed to load is skipped, so its function definition
`funcF` — which meets every stated condition — yields no ranking entry
at all. -/
theorem rank_candidates_counterexample :
    runRank false true progErr = some [] ∧
    (some funcF) ∈ errPkg.defs ∧ isFunc funcF = true ∧
    funcF.name ≠ "main" ∧ funcF.name ≠ "init" := by
  refine ⟨?_, by simp [errPkg], by decide, by decide, by decide⟩
  rw [runRank_some false true progErr rfl]
  rw [show candidateEntries false true progErr = [] from rfl]
  unfold sortByCount
  rw [List.mergeSort_nil]

/-- **C2 (amended)**: whenever ranking runs to completion, its entry
set is exactly the function/method Definition symbols found in the
listed packages that are not skipped as error-bearing (with allow-errors
off, a load error aborts before ranking, so all listed packages count),
excluding names `main` and `init` and — when interface exclusion is on —
symbols satisfying the interface index; each entry's count is the number
of Use occurrences across the non-skipped listed packages resolving to
that symbol, and no symbol appears twice. -/
theorem rank_candidates_and_counts (ia ae : Bool) (prog : Program)
    (out : List (Option Sym × Nat)) (h : runRank ia ae prog = some out) :
    (∀ s : Sym,
      (∃ c ∈ out, c.1 = some s) ↔
        ((∃ info ∈ keptPkgs ae prog.imported, some s ∈ info.defs) ∧
          isFunc s = true ∧ s.name ≠ "main" ∧ s.name ≠ "init" ∧
          (ia = true →
            satisfiesInterface s (allInterfaces prog) = false))) ∧
    (∀ c ∈ out, c.2 =
      ((keptPkgs ae prog.imported).map fun info =>
        info.uses.count c.1).sum) ∧
    (out.map Prod.fst).Nodup := by
  have hout : out = sortByCount (candidateEntries ia ae prog) := by
    unfold runRank at h
    by_cases hl : loadOk ae prog = true
    · rw [hl] at h
      rw [if_pos rfl] at h
      exact (Option.some.inj h).symm
    · rw [Bool.not_eq_true] at hl
      rw [hl] at h
      rw [if_neg (by simp)] at h
      exact absurd h (by simp)
  have hperm : (sortByCount (candidateEntries ia ae prog)).Perm
      (candidateEntries ia ae prog) := List.mergeSort_perm _ _
  have hifa : (if ia then allInterfaces prog else []) =
      (if ia = true then allInterfaces prog else []) := rfl
  refine ⟨?_, ?_, ?_⟩
  · intro s
    constructor
    · rintro ⟨c, hc, hcs⟩
      have hc' : c ∈ candidateEntries ia ae prog :=
        (hperm.mem_iff).mp (hout ▸ hc)
      obtain ⟨k, hk, hkc⟩ := List.mem_map.mp hc'
      have hks : k = some s := by rw [← hcs, ← hkc]
      subst hks
      have hmem := (mem_candidateKeys ia ae _ prog.imported (some s)).mp hk
      obtain ⟨s', hs', hfun, hm, hi, hsat⟩ := (keepDef_iff _ _ _).mp hmem.2
      obtain rfl : s = s' := Option.some.inj hs'
      refine ⟨hmem.1, hfun, hm, hi, ?_⟩
      intro hia
      have := hsat hia
      rw [hia] at this
      simpa using this
    · rintro ⟨hdefs, hfun, hm, hi, hsat⟩
      have hkeep : keepDef ia (if ia then allInterfaces prog else [])
          (some s) = true := by
        apply (keepDef_iff _ _ _).mpr
        refine ⟨s, rfl, hfun, hm, hi, ?_⟩
        intro hia
        rw [hia]
        simpa using hsat hia
      have hk : (some s) ∈ candidateKeys ia ae
          (if ia then allInterfaces prog else []) prog.imported :=
        (mem_candidateKeys ia ae _ prog.imported (some s)).mpr ⟨hdefs, hkeep⟩
      refine ⟨(some s, useCount ae prog.imported (some s)), ?_, rfl⟩
      rw [hout]
      apply (hperm.mem_iff).mpr
      exact List.mem_map.mpr ⟨some s, hk, rfl⟩
  · intro c hc
    have hc' : c ∈ candidateEntries ia ae prog :=
      (hperm.mem_iff).mp (hout ▸ hc)
    obtain ⟨k, hk, hkc⟩ := List.mem_map.mp hc'
    have hmem := (mem_candidateKeys ia ae _ prog.imported k).mp hk
    obtain ⟨s', hs', _⟩ := (keepDef_iff _ _ _).mp hmem.2
    subst hs'
    rw [← hkc]
    exact useCount_eq_count ae prog.imported s'
  · have hkeys : (candidateEntries ia ae prog).map Prod.fst =
        candidateKeys ia ae (if ia then allInterfaces prog else [])
          prog.imported := by
      unfold candidateEntries
      rw [List.map_map]
      exact List.map_id _
    have hnd : ((candidateEntries ia ae prog).map Prod.fst).Nodup := by
      rw [hkeys]
      exact List.nodup_dedup _
    rw [hout]
    exact (List.Perm.map Prod.fst hperm.symm).nodup hnd

/-- A cleanly loading package: exported method `G` defined once and used
twice, with a nil `Uses` entry in between. -/
def okPkg : PkgInfo := ⟨0, [some okFuncG], [some okFuncG, none, some okFuncG]⟩

def progOk : Program := ⟨[okPkg], [okPkg]⟩

theorem runRank_progOk :
    runRank false false progOk = some [(some okFuncG, 2)] := by
  rw [runRank_some false false progOk rfl]
  rw [show candidateEntries false false progOk = [(some okFuncG, 2)] from rfl]
  unfold sortByCount
  rw [List.mergeSort_singleton]

/-- **C2 witness**: the amended claim at the concrete one-package
program. -/
theorem rank_candidates_witness :
    ∃ c ∈ [((some okFuncG : Option Sym), 2)], c.1 = some okFuncG := by
  apply ((rank_candidates_and_counts false false progOk
    [(some okFuncG, 2)] runRank_progOk).1 okFuncG).mpr
  refine ⟨⟨okPkg, ?_, by simp [okPkg]⟩, by decide, by decide, by decide,
    fun h => Bool.noConfusion h⟩
  show okPkg ∈ keptPkgs false progOk.imported
  simp [keptPkgs, progOk]

/-! ### Nil symbols are skipped (C9) -/

/-- A package info with the nil `Defs`/`Uses` entries removed. -/
def scrubInfo (info : PkgInfo) : PkgInfo :=
  ⟨info.errors, info.defs.filter Option.isSome,
    info.uses.filter Option.isSome⟩

theorem flatMap_filter_comm {α β : Type} (l : List α) (f : α → List β)
    (p : β → Bool) :
    (l.flatMap fun a => (f a).filter p) = (l.flatMap f).filter p := by
  induction l with
  | nil => rfl
  | cons a l ih => simp [List.flatMap_cons, List.filter_append, ih]

theorem keptPkgs_map_scrub (ae : Bool) (l : List PkgInfo) :
    keptPkgs ae (l.map scrubInfo) = (keptPkgs ae l).map scrubInfo := by
  unfold keptPkgs
  rw [List.filter_map]
  congr 1

theorem filter_keep_of_isSome (ia : Bool) (ifaces : List (Sym × List Nat))
    (l : List (Option Sym)) :
    (l.filter Option.isSome).filter (keepDef ia ifaces) =
      l.filter (keepDef ia ifaces) := by
  rw [List.filter_filter]
  apply List.filter_congr
  intro o _
  cases o with
  | none => simp [keepDef]
  | some s => simp

theorem countP_of_isSome (pred : Option Sym → Bool)
    (hnone : pred none = false) (l : List (Option Sym)) :
    (l.filter Option.isSome).countP pred = l.countP pred := by
  induction l with
  | nil => rfl
  | cons o l ih =>
    cases o with
    | none => simp [List.countP_cons, hnone, ih]
    | some s => simp [List.countP_cons, ih]

/-- **C9**: a nil resolved symbol in a `Defs` or `Uses` map never enters
the ranking: it is never added as a candidate and never increments a
count — removing all nil entries changes nothing — and the ranking
output never contains a nil symbol. -/
theorem nil_symbols_skipped (ia ae : Bool) (prog : Program)
    (out : List (Option Sym × Nat)) (h : runRank ia ae prog = some out) :
    (∀ c ∈ out, c.1 ≠ none) ∧
    runRank ia ae ⟨prog.imported.map scrubInfo, prog.allPackages⟩ =
      runRank ia ae prog := by
  constructor
  · intro c hc
    have hout : out = sortByCount (candidateEntries ia ae prog) := by
      unfold runRank at h
      by_cases hl : loadOk ae prog = true
      · rw [hl] at h
        rw [if_pos rfl] at h
        exact (Option.some.inj h).symm
      · rw [Bool.not_eq_true] at hl
        rw [hl] at h
        rw [if_neg (by simp)] at h
        exact absurd h (by simp)
    have hperm : (sortByCount (candidateEntries ia ae prog)).Perm
        (candidateEntries ia ae prog) := List.mergeSort_perm _ _
    have hc' : c ∈ candidateEntries ia ae prog :=
      (hperm.mem_iff).mp (hout ▸ hc)
    obtain ⟨k, hk, hkc⟩ := List.mem_map.mp hc'
    have hmem := (mem_candidateKeys ia ae _ prog.imported k).mp hk
    obtain ⟨s', hs', _⟩ := (keepDef_iff _ _ _).mp hmem.2
    rw [← hkc]
    simp [hs']
  · have hload : loadOk ae ⟨prog.imported.map scrubInfo, prog.allPackages⟩ =
        loadOk ae prog := rfl
    have hifa : allInterfaces ⟨prog.imported.map scrubInfo,
        prog.allPackages⟩ = allInterfaces prog := rfl
    have hkeys : ∀ ifaces,
        candidateKeys ia ae ifaces (prog.imported.map scrubInfo) =
          candidateKeys ia ae ifaces prog.imported := by
      intro ifaces
      unfold candidateKeys
      rw [keptPkgs_map_scrub]
      have hfm : ((keptPkgs ae prog.imported).map scrubInfo).flatMap
          (fun info => info.defs) =
          ((keptPkgs ae prog.imported).flatMap fun info =>
            info.defs.filter Option.isSome) := by
        rw [List.flatMap_map]
        rfl
      rw [hfm, flatMap_filter_comm, filter_keep_of_isSome]
    have hcount : ∀ k, useCount ae (prog.imported.map scrubInfo) k =
        useCount ae prog.imported k := by
      intro k
      unfold useCount
      rw [keptPkgs_map_scrub]
      have hfm : ((keptPkgs ae prog.imported).map scrubInfo).flatMap
          (fun info => info.uses) =
          ((keptPkgs ae prog.imported).flatMap fun info =>
            info.uses.filter Option.isSome) := by
        rw [List.flatMap_map]
        rfl
      rw [hfm, flatMap_filter_comm, countP_of_isSome]
      rfl
    have hent : candidateEntries ia ae
        ⟨prog.imported.map scrubInfo, prog.allPackages⟩ =
        candidateEntries ia ae prog := by
      unfold candidateEntries
      rw [show (⟨prog.imported.map scrubInfo, prog.allPackages⟩ :
        Program).imported = prog.imported.map scrubInfo from rfl]
      rw [hifa, hkeys]
      apply List.map_congr_left
      intro k _
      rw [hcount]
    unfold runRank
    rw [hload, hent]

/-- **C9 witness**: the one-package program with a nil use entry. -/
theorem nil_symbols_skipped_witness :
    ((some okFuncG : Option Sym), 2).1 ≠ none :=
  (nil_symbols_skipped false false progOk [(some okFuncG, 2)]
    runRank_progOk).1 (some okFuncG, 2) (List.mem_cons_self _ _)

/-! ### Error-bearing packages contribute nothing (C3) -/

/-- **C3**: a package the front-end reports as error-bearing contributes
nothing, silently: removing it from the searched packages leaves the
search result unchanged (the skip in `config.search` is unconditional),
and removing it from the ranked packages leaves the ranking result
unchanged — with allow-errors on it is skipped by both ranking loops,
and with allow-errors off the load aborts before ranking, so both runs
return `none`. -/
theorem error_package_contributes_nothing :
    (∀ (sd : Bool) (obj : GoObj) (pre post : List SearchPkg)
      (e : SearchPkg), e.errors ≠ 0 →
      searchIdents sd obj (pre ++ e :: post) =
        searchIdents sd obj (pre ++ post)) ∧
    (∀ (ia ae : Bool) (pre post allp : List PkgInfo) (e : PkgInfo),
      e.errors ≠ 0 → e ∈ allp →
      runRank ia ae ⟨pre ++ e :: post, allp⟩ =
        runRank ia ae ⟨pre ++ post, allp⟩) := by
  constructor
  · intro sd obj pre post e he
    unfold searchIdents
    rw [List.flatMap_append, List.flatMap_cons, List.flatMap_append,
      if_pos he]
    simp
  · intro ia ae pre post allp e he hmem
    have hload : loadOk ae ⟨pre ++ e :: post, allp⟩ =
        loadOk ae ⟨pre ++ post, allp⟩ := rfl
    cases hl : loadOk ae ⟨pre ++ post, allp⟩ with
    | false =>
      unfold runRank
      rw [hload, hl]
      rw [if_neg (by simp), if_neg (by simp)]
    | true =>
      cases hae : ae with
      | false =>
        exfalso
        rw [hae] at hl
        unfold loadOk at hl
        simp only [Bool.false_or, List.all_eq_true,
          decide_eq_true_eq] at hl
        exact he (hl e hmem)
      | true =>
        have hk : keptPkgs true (pre ++ e :: post) =
            keptPkgs true (pre ++ post) := by
          unfold keptPkgs
          rw [List.filter_append, List.filter_cons, List.filter_append]
          have hpe : (!(true && decide (e.errors ≠ 0))) = false := by
            simp [he]
          rw [hpe]
          simp
        have hifa : allInterfaces ⟨pre ++ e :: post, allp⟩ =
            allInterfaces ⟨pre ++ post, allp⟩ := rfl
        have hent : candidateEntries ia true ⟨pre ++ e :: post, allp⟩ =
            candidateEntries ia true ⟨pre ++ post, allp⟩ := by
          unfold candidateEntries candidateKeys useCount
          rw [show (⟨pre ++ e :: post, allp⟩ : Program).imported =
            pre ++ e :: post from rfl]
          rw [show (⟨pre ++ post, allp⟩ : Program).imported =
            pre ++ post from rfl]
          rw [hifa, hk]
        subst hae
        unfold runRank
        rw [hload, hl, if_pos rfl, if_pos rfl, hent]
    
/-- **C3 witness**: a failed package whose `Uses` map mentions the
searched object still contributes nothing. -/
theorem error_package_contributes_nothing_witness :
    searchIdents false ⟨9⟩
      ([] ++ (⟨2, [], [(⟨4⟩, some ⟨9⟩)]⟩ : SearchPkg) :: []) =
      searchIdents false ⟨9⟩ ([] ++ []) :=
  error_package_contributes_nothing.1 false ⟨9⟩ [] []
    ⟨2, [], [(⟨4⟩, some ⟨9⟩)]⟩ (by decide)

/-! ### Ranking output order (C7) -/

/-- **C7**: the emitted ranking sequence is sorted: for any two entries,
either the counts differ and the smaller count comes first, or the
counts are equal and the earlier entry's qualified-name string is
lexicographically no greater; and for entries whose (count, qualified
name) keys are distinct the sorted output is the same for every
iteration order of the count map, so the output is deterministic. -/
theorem rank_output_strict_order :
    (∀ (ia ae : Bool) (prog : Program) (out : List (Option Sym × Nat)),
      runRank ia ae prog = some out →
      out.Pairwise fun a b => a.2 < b.2 ∨
        (a.2 = b.2 ∧ strLt (keyStr b.1) (keyStr a.1) = false)) ∧
    (∀ l l' : List (Option Sym × Nat), l.Perm l' →
      (∀ a ∈ l, ∀ b ∈ l, a.2 = b.2 → keyStr a.1 = keyStr b.1 → a = b) →
      sortByCount l = sortByCount l') := by
  have hconv : ∀ a b : Option Sym × Nat, (!byCountLess b a) = true →
      a.2 < b.2 ∨ (a.2 = b.2 ∧ strLt (keyStr b.1) (keyStr a.1) = false) := by
    intro a b hle
    rw [Bool.not_eq_true'] at hle
    have hn : ¬(b.2 < a.2 ∨ (b.2 = a.2 ∧
        strLt (keyStr b.1) (keyStr a.1) = true)) := by
      intro hc
      have := (byCountLess_iff b a).mpr hc
      rw [this] at hle
      cases hle
    rcases Nat.lt_or_ge a.2 b.2 with hlt | hge
    · exact Or.inl hlt
    · have heq : a.2 = b.2 := by
        have : ¬(b.2 < a.2) := fun hc => hn (Or.inl hc)
        omega
      right
      refine ⟨heq, ?_⟩
      cases hs : strLt (keyStr b.1) (keyStr a.1)
      · rfl
      · exact absurd (Or.inr ⟨heq.symm, hs⟩) hn
  have hsorted : ∀ l : List (Option Sym × Nat),
      (sortByCount l).Pairwise fun a b => (!byCountLess b a) = true := by
    intro l
    exact List.sorted_mergeSort byCountLE_trans byCountLE_total l
  constructor
  · intro ia ae prog out h
    have hout : out = sortByCount (candidateEntries ia ae prog) := by
      unfold runRank at h
      by_cases hl : loadOk ae prog = true
      · rw [hl] at h
        rw [if_pos rfl] at h
        exact (Option.some.inj h).symm
      · rw [Bool.not_eq_true] at hl
        rw [hl] at h
        rw [if_neg (by simp)] at h
        exact absurd h (by simp)
    rw [hout]
    exact (hsorted _).imp fun hab => hconv _ _ hab
  · intro l l' hperm hinj
    apply eq_of_perm_of_pairwise (R := fun a b => (!byCountLess b a) = true)
    · exact (List.mergeSort_perm l _).trans
        (hperm.trans (List.mergeSort_perm l' _).symm)
    · exact hsorted l
    · exact hsorted l'
    · intro a ha b hb hab hba
      have ha' : a ∈ l := ((List.mergeSort_perm l _).mem_iff).mp ha
      have hb' : b ∈ l := ((List.mergeSort_perm l _).mem_iff).mp hb
      rw [Bool.not_eq_true'] at hab hba
      have hna : ¬(b.2 < a.2 ∨ (b.2 = a.2 ∧
          strLt (keyStr b.1) (keyStr a.1) = true)) := by
        intro hc
        have := (byCountLess_iff b a).mpr hc
        rw [this] at hab
        cases hab
      have hnb : ¬(a.2 < b.2 ∨ (a.2 = b.2 ∧
          strLt (keyStr a.1) (keyStr b.1) = true)) := by
        intro hc
        have := (byCountLess_iff a b).mpr hc
        rw [this] at hba
        cases hba
      have heq : a.2 = b.2 := by
        have h1 : ¬(b.2 < a.2) := fun hc => hna (Or.inl hc)
        have h2 : ¬(a.2 < b.2) := fun hc => hnb (Or.inl hc)
        omega
      have hs1 : strLt (keyStr b.1) (keyStr a.1) = false := by
        cases hs : strLt (keyStr b.1) (keyStr a.1)
        · rfl
        · exact absurd (Or.inr ⟨heq.symm, hs⟩) hna
      have hs2 : strLt (keyStr a.1) (keyStr b.1) = false := by
        cases hs : strLt (keyStr a.1) (keyStr b.1)
        · rfl
        · exact absurd (Or.inr ⟨heq, hs⟩) hnb
      exact hinj a ha' b hb' heq (strLt_conn _ _ hs2 hs1)

/-- **C7 witness**: two iteration orders of the same two-entry count map
sort identically. -/
theorem rank_output_strict_order_witness :
    sortByCount [((some okFuncG : Option Sym), 1), (some funcF, 0)] =
      sortByCount [((some funcF : Option Sym), 0), (some okFuncG, 1)] :=
  rank_output_strict_order.2 _ _
    (List.Perm.swap (some funcF, 0) (some okFuncG, 1) [])
    (by decide)
